import Mathlib

/-!
Shallow embedding of `fastapi_versioning/versioning.py`.

The repository's single source file classifies the routes of a FastAPI
application, groups the API routes by their `(major, minor)` version tag,
builds one sub-application per version carrying the cumulative route table,
and optionally mounts a "latest" or "legacy" alias sub-application.

We model routes, mounts, the `unique_routes` dict and the `VersionedFastAPI`
composition function directly from the source.  Machine-level details that
the algorithm never inspects (handler objects, Starlette apps) are opaque
`Nat` identities.
-/

namespace FastapiVersioning

/-- A version tag `(major, minor)`, as produced by the `@version` decorator. -/
abbrev Ver := Nat × Nat

/-- An `APIRoute` of the input application: its `path`, its `methods`
(FastAPI stores a set of method strings; we keep the list, only membership
and cardinality matter), the optional `_api_version` attribute placed on its
endpoint by the `version` decorator, and an opaque object identity `rid`
distinguishing route instances. -/
structure APIRoute where
  path : String
  methods : List String
  tag : Option Ver
  rid : Nat
deriving DecidableEq

/-- A Starlette `Mount` (static mount): its `path`, opaque `app`, and `name`. -/
structure MountR where
  path : String
  appId : Nat
  nm : String
deriving DecidableEq

/-- A `BaseRoute` of the input application's route list: an `APIRoute`, a
`Mount`, or some other kind of route (e.g. a bare Starlette `Route` or a
websocket route), which `versioning.py` matches with neither `isinstance`
test. -/
inductive BaseRoute where
  | api : APIRoute → BaseRoute
  | mnt : MountR → BaseRoute
  | other : Nat → BaseRoute
deriving DecidableEq

/-- `filter_api_routes`: `isinstance(route, APIRoute)`. -/
def filter_api_routes : BaseRoute → Bool
  | .api _ => true
  | _ => false

/-- `filter_static_mounts`: `isinstance(route, Mount)`. -/
def filter_static_mounts : BaseRoute → Bool
  | .mnt _ => true
  | _ => false

/-- The `cast(APIRoute, route)` payload of a route that passed
`filter_api_routes`. -/
def getAPI : BaseRoute → Option APIRoute
  | .api r => some r
  | _ => none

/-- The `cast(Mount, mount)` payload of a route that passed
`filter_static_mounts`. -/
def getMnt : BaseRoute → Option MountR
  | .mnt m => some m
  | _ => none

/-- `version_to_route`: read `_api_version` off the endpoint, defaulting to
`default_version`. -/
def version_to_route (r : APIRoute) (default_version : Ver) : Ver × APIRoute :=
  (r.tag.getD default_version, r)

/-- `[version_to_route(route, default_version) for route in
filter(filter_api_routes, app.routes)]` (the filter and the cast are fused
into `filterMap getAPI`). -/
def versionRoutesOf (routes : List BaseRoute) (default_version : Ver) :
    List (Ver × APIRoute) :=
  (routes.filterMap getAPI).map (fun r => version_to_route r default_version)

/-- Python's `<=` on `(major, minor)` tuples: lexicographic order. -/
def vle (a b : Ver) : Prop := a.1 < b.1 ∨ (a.1 = b.1 ∧ a.2 ≤ b.2)

/-- Python's `<` on `(major, minor)` tuples: strict lexicographic order. -/
def vlt (a b : Ver) : Prop := a.1 < b.1 ∨ (a.1 = b.1 ∧ a.2 < b.2)

instance : DecidableRel vle := fun a b => by
  unfold vle; exact inferInstance

instance : DecidableRel vlt := fun a b => by
  unfold vlt; exact inferInstance

instance : IsTotal Ver vle where
  total a b := by unfold vle; omega

instance : IsTrans Ver vle where
  trans a b c := by unfold vle; omega

/-- `sorted(version_route_mapping.keys())`: the distinct version tags,
sorted ascending.  `dedup` models the keying of the `defaultdict`,
`insertionSort vle` models Python's `sorted`. -/
def sortVersions (tags : List Ver) : List Ver :=
  List.insertionSort vle tags.dedup

/-- The sorted distinct versions of a classified route list. -/
def versionsOf (vr : List (Ver × APIRoute)) : List Ver :=
  sortVersions (vr.map Prod.fst)

/-- `version_route_mapping[v]`: the routes tagged exactly `v`, in
registration order (the `defaultdict(list)` appends in iteration order). -/
def bucket (vr : List (Ver × APIRoute)) (v : Ver) : List APIRoute :=
  (vr.filter (fun p => decide (p.1 = v))).map Prod.snd

/-- The `unique_routes` dict: an insertion-ordered association list from the
string key `route.path + "|" + method` to the route. -/
abbrev Table := List (String × APIRoute)

/-- `route.path + "|" + method`. -/
def routeKey (path method : String) : String := path ++ "|" ++ method

/-- `unique_routes[key] = route`, with Python dict semantics: an existing
key is updated in place, a new key is appended. -/
def dictInsert : Table → String → APIRoute → Table
  | [], k, v => [(k, v)]
  | p :: rest, k, v => if p.1 = k then (k, v) :: rest else p :: dictInsert rest k v

/-- `unique_routes[key]` lookup (`None` when absent). -/
def tblGet : Table → String → Option APIRoute
  | [], _ => none
  | p :: rest, k => if p.1 = k then some p.2 else tblGet rest k

/-- Whether `route` defines the dict key `k`, i.e. `k = route.path + "|" + m`
for one of its methods. -/
def rDefines (r : APIRoute) (k : String) : Bool :=
  r.methods.any (fun m => routeKey r.path m == k)

/-- `for method in route.methods: unique_routes[route.path + "|" + method] = route`. -/
def addRoute (d : Table) (r : APIRoute) : Table :=
  r.methods.foldl (fun d m => dictInsert d (routeKey r.path m) r) d

/-- `for route in version_route_mapping[version]: ...` — add one version's
bucket to the running `unique_routes`. -/
def addBucket (d : Table) (rs : List APIRoute) : Table :=
  rs.foldl addRoute d

/-- The values of the table in key-insertion order: the routes appended to
`versioned_app.router.routes` (`unique_routes.values()`). -/
def values (d : Table) : List APIRoute := d.map Prod.snd

/-- The running `unique_routes` after folding the buckets of the versions in
`vs` (in order) into the starting table `d`. -/
def cumFold (vr : List (Ver × APIRoute)) (d : Table) (vs : List Ver) : Table :=
  vs.foldl (fun d v => addBucket d (bucket vr v)) d

/-- The cumulative route table at version `V`: the buckets of all present
versions `≤ V`, folded in ascending order into an empty dict.  This is the
state of `unique_routes` at the end of the loop iteration for `V`. -/
def tableAt (vr : List (Ver × APIRoute)) (V : Ver) : Table :=
  cumFold vr [] ((versionsOf vr).filter (fun u => decide (vle u V)))

/-- A version sub-application: its mount prefix string, its semantic version
label, and its materialized `router.routes` list. -/
structure SubApp where
  pfx : String
  semver : String
  routes : List APIRoute
deriving DecidableEq

/-- The composed parent application: the mount table (prefix and sub-app,
in mount order — versioned apps first, the alias last), the static mounts
remounted in the alias branch, and the paths of the `noop` docs routes
registered on the parent. -/
structure ParentApp where
  mounts : List (String × SubApp)
  staticRemounts : List MountR
  docPaths : List String
deriving DecidableEq

/-- The `for version in versions:` loop.  Carries the running
`unique_routes` table `d`; for each version it adds the version's bucket,
formats the prefix and semantic version, snapshots the table's values as
the sub-application's route list, and records the mount and the two `noop`
docs routes.  Returns the final table, the mounts, and the docs paths. -/
def mainLoop (vr : List (Ver × APIRoute)) (pf vf : Nat → Nat → String) :
    Table → List Ver → Table × List (String × SubApp) × List String
  | d, [] => (d, [], [])
  | d, v :: rest =>
    let d' := addBucket d (bucket vr v)
    let pfx := pf v.1 v.2
    let semver := vf v.1 v.2
    let out := mainLoop vr pf vf d' rest
    (out.1, (pfx, ⟨pfx, semver, values d'⟩) :: out.2.1,
      (pfx ++ "/openapi.json") :: (pfx ++ "/docs") :: out.2.2)

/-- `VersionedFastAPI(app, version_format, prefix_format, default_version,
enable_latest, enable_legacy)`.

The format strings are modelled as functions of `major` and `minor` (what
`str.format` computes).  The Python loop variable `version` is unbound when
the loops never ran, so evaluating it in the alias branch (which happens
exactly when `enable_latest` is set with no versionable routes) raises
`UnboundLocalError`; we return `Except.error` there.  Static mounts are
remounted on the parent only inside the alias branch, as in the source. -/
def VersionedFastAPI (routes : List BaseRoute)
    (version_format prefix_format : Nat → Nat → String)
    (default_version : Ver)
    (enable_latest enable_legacy : Bool) : Except String ParentApp :=
  let version_routes := versionRoutesOf routes default_version
  let static_mounts := routes.filterMap getMnt
  let versions := versionsOf version_routes
  let out := mainLoop version_routes prefix_format version_format [] versions
  let unique_routes := out.1
  if enable_latest || enable_legacy then
    let pfx := if enable_latest then "/latest" else ""
    let mv : Except String Ver :=
      if enable_latest then
        match versions.getLast? with
        | some v => .ok v
        | none => .error "UnboundLocalError: version referenced before assignment"
      else .ok default_version
    match mv with
    | .error e => .error e
    | .ok v =>
      let semver := version_format v.1 v.2
      let aliasApp : SubApp := ⟨pfx, semver, values unique_routes⟩
      .ok ⟨out.2.1 ++ [(pfx, aliasApp)], static_mounts, out.2.2⟩
  else
    .ok ⟨out.2.1, [], out.2.2⟩

/-- The default `version_format = "{major}.{minor}"`. -/
def defaultVerFmt (major minor : Nat) : String :=
  Nat.repr major ++ "." ++ Nat.repr minor

/-- The default `prefix_format = "/v{major}_{minor}"`. -/
def defaultPfxFmt (major minor : Nat) : String :=
  "/v" ++ Nat.repr major ++ "_" ++ Nat.repr minor

end FastapiVersioning

namespace FastapiVersioning

/-! ### Order lemmas for the lexicographic version order -/

theorem vle_refl (a : Ver) : vle a a := by unfold vle; omega

theorem vle_trans' {a b c : Ver} (h1 : vle a b) (h2 : vle b c) : vle a c := by
  unfold vle at *; omega

theorem vle_antisymm {a b : Ver} (h1 : vle a b) (h2 : vle b a) : a = b := by
  unfold vle at *
  have : a.1 = b.1 ∧ a.2 = b.2 := by omega
  exact Prod.ext this.1 this.2

theorem vle_of_vlt {a b : Ver} (h : vlt a b) : vle a b := by
  unfold vle vlt at *; omega

theorem vle_of_not_vlt {a b : Ver} (h : ¬ vlt a b) : vle b a := by
  unfold vle vlt at *; omega

/-! ### `getLast?` helpers -/

theorem getLast?_mem' {α : Type} : ∀ {l : List α} {a : α}, l.getLast? = some a → a ∈ l
  | [], _, h => by simp at h
  | [x], a, h => by
    simp [List.getLast?] at h
    simp [h]
  | x :: y :: t, a, h => by
    rw [List.getLast?_cons_cons] at h
    exact List.mem_cons_of_mem x (getLast?_mem' h)

theorem pairwise_vle_getLast : ∀ {l : List Ver}, l.Pairwise vle →
    ∀ {m : Ver}, l.getLast? = some m → ∀ u ∈ l, vle u m
  | [], _, _, h => by simp at h
  | a :: t, hp, m, h => by
    intro u hu
    rcases List.pairwise_cons.mp hp with ⟨ha, ht⟩
    cases t with
    | nil =>
      simp [List.getLast?] at h
      rcases List.mem_singleton.mp hu with rfl
      subst h; exact vle_refl u
    | cons y t' =>
      rw [List.getLast?_cons_cons] at h
      rcases List.mem_cons.mp hu with rfl | hu'
      · exact ha m (getLast?_mem' h)
      · exact pairwise_vle_getLast ht h u hu'

/-! ### Lookup lemmas for the `unique_routes` dict -/

theorem tblGet_dictInsert (d : Table) (k : String) (v : APIRoute) (q : String) :
    tblGet (dictInsert d k v) q = if q = k then some v else tblGet d q := by
  induction d with
  | nil =>
    by_cases hq : q = k
    · subst hq; simp [dictInsert, tblGet]
    · simp [dictInsert, tblGet, hq, Ne.symm hq]
  | cons p rest ih =>
    by_cases hp : p.1 = k
    · by_cases hq : q = k
      · subst hq; simp [dictInsert, tblGet, hp]
      · simp [dictInsert, tblGet, hp, hq, Ne.symm hq]
    · by_cases hpq : p.1 = q
      · have hq : ¬ q = k := fun h => hp (hpq.trans h)
        simp [dictInsert, tblGet, hp, hpq, hq]
      · simp [dictInsert, tblGet, hp, hpq, ih]

theorem tblGet_addRoute_aux (pa : String) (r : APIRoute) :
    ∀ (ms : List String) (d : Table) (k : String),
      tblGet (ms.foldl (fun d m => dictInsert d (routeKey pa m) r) d) k =
        if ms.any (fun m => routeKey pa m == k) then some r else tblGet d k
  | [], d, k => by simp
  | m :: ms, d, k => by
    simp only [List.foldl_cons, List.any_cons]
    rw [tblGet_addRoute_aux pa r ms]
    by_cases h1 : ms.any (fun m => routeKey pa m == k)
    · simp [h1]
    · by_cases h2 : routeKey pa m = k
      · simp [h1, h2, tblGet_dictInsert]
      · simp [h1, h2, tblGet_dictInsert, Ne.symm h2]

theorem tblGet_addRoute (d : Table) (r : APIRoute) (k : String) :
    tblGet (addRoute d r) k = if rDefines r k then some r else tblGet d k :=
  tblGet_addRoute_aux r.path r r.methods d k

/-- The routes of version `u`'s bucket that define the key `k`, in
registration order. -/
def definers (vr : List (Ver × APIRoute)) (u : Ver) (k : String) : List APIRoute :=
  (bucket vr u).filter (fun r => rDefines r k)

theorem tblGet_addBucket (k : String) :
    ∀ (rs : List APIRoute) (d : Table),
      tblGet (addBucket d rs) k =
        ((rs.filter (fun r => rDefines r k)).getLast?).or (tblGet d k)
  | [], d => by simp [addBucket]
  | r :: rs, d => by
    simp only [addBucket, List.foldl_cons]
    rw [show (List.foldl addRoute (addRoute d r) rs) = addBucket (addRoute d r) rs from rfl]
    rw [tblGet_addBucket k rs]
    rw [List.filter_cons]
    by_cases h : rDefines r k
    · rw [if_pos h]
      rw [show (r :: List.filter (fun r => rDefines r k) rs) =
            [r] ++ List.filter (fun r => rDefines r k) rs from rfl]
      rw [List.getLast?_append, tblGet_addRoute, if_pos h]
      cases (List.filter (fun r => rDefines r k) rs).getLast? <;> simp
    · rw [if_neg h, tblGet_addRoute, if_neg h]

theorem tblGet_cumFold (vr : List (Ver × APIRoute)) (k : String) :
    ∀ (vs : List Ver) (d : Table),
      tblGet (cumFold vr d vs) k =
        ((vs.map (fun u => definers vr u k)).flatten.getLast?).or (tblGet d k)
  | [], d => by simp [cumFold]
  | u :: vs, d => by
    simp only [cumFold, List.foldl_cons, List.map_cons, List.flatten_cons]
    rw [show (List.foldl (fun d v => addBucket d (bucket vr v))
          (addBucket d (bucket vr u)) vs) = cumFold vr (addBucket d (bucket vr u)) vs from rfl]
    rw [tblGet_cumFold vr k vs, tblGet_addBucket, List.getLast?_append, Option.or_assoc]
    rfl

theorem tblGet_tableAt (vr : List (Ver × APIRoute)) (V : Ver) (k : String) :
    tblGet (tableAt vr V) k =
      (((versionsOf vr).filter (fun u => decide (vle u V))).map
        (fun u => definers vr u k)).flatten.getLast? := by
  unfold tableAt
  rw [tblGet_cumFold]
  cases h : (((versionsOf vr).filter (fun u => decide (vle u V))).map
      (fun u => definers vr u k)).flatten.getLast? <;> simp [tblGet]

theorem flatten_filter_isEmpty {α β : Type} (f : α → List β) :
    ∀ l : List α,
      (l.map f).flatten = ((l.filter (fun v => !(f v).isEmpty)).map f).flatten
  | [] => rfl
  | v :: l => by
    by_cases h : (f v).isEmpty
    · have hnil : f v = [] := List.isEmpty_iff.mp h
      rw [List.map_cons, List.flatten_cons, List.filter_cons_of_neg (by simp [h]), hnil,
        List.nil_append]
      exact flatten_filter_isEmpty f l
    · rw [List.map_cons, List.flatten_cons, List.filter_cons_of_pos (by simp [h]),
        List.map_cons, List.flatten_cons, flatten_filter_isEmpty f l]

theorem flatten_getLast?_nonempty {α β : Type} (f : α → List β) :
    ∀ l : List α, (∀ v ∈ l, f v ≠ []) →
      (l.map f).flatten.getLast? = l.getLast?.bind (fun u => (f u).getLast?)
  | [], _ => rfl
  | v :: l, h => by
    rw [List.map_cons, List.flatten_cons, List.getLast?_append]
    cases l with
    | nil => simp
    | cons w l' =>
      have hne : (w :: l') ≠ [] := by simp
      obtain ⟨u, hu⟩ : ∃ u, (w :: l').getLast? = some u := by
        cases hu : (w :: l').getLast? with
        | none => exact absurd (List.getLast?_eq_none_iff.mp hu) hne
        | some u => exact ⟨u, rfl⟩
      have humem : u ∈ w :: l' := getLast?_mem' hu
      have hfu : f u ≠ [] := h u (List.mem_cons_of_mem v humem)
      obtain ⟨b, hb⟩ : ∃ b, (f u).getLast? = some b := by
        cases hfb : (f u).getLast? with
        | none => exact absurd (List.getLast?_eq_none_iff.mp hfb) hfu
        | some b => exact ⟨b, rfl⟩
      rw [flatten_getLast?_nonempty f (w :: l') (fun x hx => h x (List.mem_cons_of_mem v hx)),
        List.getLast?_cons_cons, hu]
      simp [hb]

/-- The version whose bucket supplies the value of key `k` in the cumulative
table at `V`: the last (i.e. highest, the list being sorted) present version
`≤ V` whose bucket has a route defining `k`. -/
def winningVersion (vr : List (Ver × APIRoute)) (V : Ver) (k : String) : Option Ver :=
  ((versionsOf vr).filter
    (fun u => decide (vle u V) && !(definers vr u k).isEmpty)).getLast?

theorem tblGet_tableAt_blocks (vr : List (Ver × APIRoute)) (V : Ver) (k : String) :
    tblGet (tableAt vr V) k =
      (winningVersion vr V k).bind (fun u => (definers vr u k).getLast?) := by
  have hne : ∀ v ∈ ((versionsOf vr).filter (fun u => decide (vle u V))).filter
      (fun v => !(definers vr v k).isEmpty), definers vr v k ≠ [] := by
    intro v hv hnil
    have h2 := (List.mem_filter.mp hv).2
    rw [hnil] at h2
    simp at h2
  rw [tblGet_tableAt, flatten_filter_isEmpty (fun u => definers vr u k),
    flatten_getLast?_nonempty (fun u => definers vr u k) _ hne,
    List.filter_filter]
  unfold winningVersion
  rw [List.filter_congr
    (fun x _ => Bool.and_comm (!(definers vr x k).isEmpty) (decide (vle x V)))]

theorem versionsOf_pairwise (vr : List (Ver × APIRoute)) :
    (versionsOf vr).Pairwise vle :=
  List.sorted_insertionSort vle _

theorem versionsOf_nodup (vr : List (Ver × APIRoute)) : (versionsOf vr).Nodup :=
  ((List.perm_insertionSort vle _).nodup_iff).mpr (List.nodup_dedup _)

theorem mem_versionsOf {vr : List (Ver × APIRoute)} {u : Ver} :
    u ∈ versionsOf vr ↔ u ∈ vr.map Prod.fst := by
  unfold versionsOf sortVersions
  rw [List.mem_insertionSort, List.mem_dedup]

theorem versionsOf_eq_nil_iff {vr : List (Ver × APIRoute)} :
    versionsOf vr = [] ↔ vr = [] := by
  constructor
  · intro h
    cases vr with
    | nil => rfl
    | cons p t =>
      exfalso
      have hm : p.1 ∈ versionsOf (p :: t) := mem_versionsOf.mpr (by simp)
      rw [h] at hm
      simp at hm
  · intro h; subst h; rfl

/-- C4: for every input, every present version `V`, and every `(path, method)`
key, the cumulative route table of `V` maps the key to a route registered at
the highest version `≤ V` whose bucket defines that key (last-write-wins per
key in ascending version order). -/
theorem c4_cumulative_last_write_wins
    (vr : List (Ver × APIRoute)) (V u : Ver) (k : String)
    (hV : V ∈ versionsOf vr)
    (hw : winningVersion vr V k = some u) :
    u ∈ versionsOf vr ∧ vle u V ∧
      (∃ r, tblGet (tableAt vr V) k = some r ∧ r ∈ bucket vr u ∧ rDefines r k = true) ∧
      (∀ u', u' ∈ versionsOf vr → vle u' V → definers vr u' k ≠ [] → vle u' u) := by
  have humem := getLast?_mem' hw
  have hsplit := List.mem_filter.mp humem
  have huV : vle u V := by
    have := hsplit.2
    simp only [Bool.and_eq_true, decide_eq_true_eq] at this
    exact this.1
  have hdef : definers vr u k ≠ [] := by
    have := hsplit.2
    simp only [Bool.and_eq_true, Bool.not_eq_true', List.isEmpty_eq_false] at this
    exact this.2
  refine ⟨hsplit.1, huV, ?_, ?_⟩
  · obtain ⟨r, hr⟩ : ∃ r, (definers vr u k).getLast? = some r := by
      cases hg : (definers vr u k).getLast? with
      | none => exact absurd (List.getLast?_eq_none_iff.mp hg) hdef
      | some r => exact ⟨r, rfl⟩
    have hrmem := getLast?_mem' hr
    have hrsplit := List.mem_filter.mp hrmem
    refine ⟨r, ?_, hrsplit.1, hrsplit.2⟩
    rw [tblGet_tableAt_blocks, hw]
    simpa using hr
  · intro u' hu'1 hu'2 hu'3
    have hu'mem : u' ∈ (versionsOf vr).filter
        (fun u => decide (vle u V) && !(definers vr u k).isEmpty) := by
      refine List.mem_filter.mpr ⟨hu'1, ?_⟩
      simp only [Bool.and_eq_true, decide_eq_true_eq, Bool.not_eq_true',
        List.isEmpty_eq_false]
      exact ⟨hu'2, hu'3⟩
    exact pairwise_vle_getLast
      (List.Pairwise.filter _ (versionsOf_pairwise vr)) hw u' hu'mem

/-- If no version in `(V1, V2]` has a route defining `k`, the cumulative
tables at `V1` and at `V2` agree on key `k`. -/
theorem tableAt_inherit (vr : List (Ver × APIRoute)) (V1 V2 : Ver) (k : String)
    (h12 : vle V1 V2)
    (hno : ∀ u ∈ versionsOf vr, vlt V1 u → vle u V2 → definers vr u k = []) :
    tblGet (tableAt vr V2) k = tblGet (tableAt vr V1) k := by
  rw [tblGet_tableAt_blocks, tblGet_tableAt_blocks]
  unfold winningVersion
  rw [List.filter_congr (p := fun u => decide (vle u V2) && !(definers vr u k).isEmpty)
    (q := fun u => decide (vle u V1) && !(definers vr u k).isEmpty) ?_]
  intro x hx
  by_cases hxe : (definers vr x k).isEmpty
  · simp [hxe]
  · simp only [hxe, Bool.not_false, Bool.and_true]
    apply decide_eq_decide.mpr
    constructor
    · intro hx2
      by_cases hxgt : vlt V1 x
      · exact absurd (hno x hx hxgt hx2)
          (by simpa [List.isEmpty_eq_false] using hxe)
      · exact vle_of_not_vlt hxgt
    · intro hx1
      exact vle_trans' hx1 h12

/-- C5: for versions `V1 < V2` both present, every `(path, method)` key
visible in the cumulative table at `V1` that is not overridden by any route
tagged with a version in `(V1, V2]` is also visible, mapped to the same
route, in the cumulative table at `V2`. -/
theorem c5_monotonic_inheritance
    (vr : List (Ver × APIRoute)) (V1 V2 : Ver) (k : String) (r : APIRoute)
    (h1 : V1 ∈ versionsOf vr) (h2 : V2 ∈ versionsOf vr)
    (hlt : vlt V1 V2)
    (hvis : tblGet (tableAt vr V1) k = some r)
    (hno : ∀ u ∈ versionsOf vr, vlt V1 u → vle u V2 → definers vr u k = []) :
    tblGet (tableAt vr V2) k = some r := by
  rw [tableAt_inherit vr V1 V2 k (vle_of_vlt hlt) hno]
  exact hvis

theorem mainLoop_fst (vr : List (Ver × APIRoute)) (pf vf : Nat → Nat → String) :
    ∀ (vs : List Ver) (d : Table), (mainLoop vr pf vf d vs).1 = cumFold vr d vs
  | [], _ => rfl
  | v :: vs, d => by
    simp only [mainLoop, cumFold, List.foldl_cons]
    exact mainLoop_fst vr pf vf vs (addBucket d (bucket vr v))

theorem mainLoop_mounts_length (vr : List (Ver × APIRoute)) (pf vf : Nat → Nat → String) :
    ∀ (vs : List Ver) (d : Table), (mainLoop vr pf vf d vs).2.1.length = vs.length
  | [], _ => rfl
  | v :: vs, d => by
    simp only [mainLoop, List.length_cons]
    rw [mainLoop_mounts_length vr pf vf vs (addBucket d (bucket vr v))]

theorem mainLoop_mounts_mem (vr : List (Ver × APIRoute)) (pf vf : Nat → Nat → String) :
    ∀ (vs : List Ver) (d : Table), vs.Pairwise vle → vs.Nodup →
      ∀ V ∈ vs,
        (pf V.1 V.2, (⟨pf V.1 V.2, vf V.1 V.2,
          values (cumFold vr d (vs.filter (fun u => decide (vle u V))))⟩ : SubApp))
          ∈ (mainLoop vr pf vf d vs).2.1
  | [], _, _, _, V, hV => absurd hV (List.not_mem_nil V)
  | v :: vs, d, hp, hn, V, hV => by
    rcases List.mem_cons.mp hV with rfl | hV'
    · have hfil : (V :: vs).filter (fun u => decide (vle u V)) = [V] := by
        rw [List.filter_cons, if_pos (by simp [vle_refl])]
        have : vs.filter (fun u => decide (vle u V)) = [] := by
          rw [List.filter_eq_nil_iff]
          intro u hu hle
          have h1 : vle V u := (List.pairwise_cons.mp hp).1 u hu
          have h2 : vle u V := by simpa using hle
          have : u = V := vle_antisymm h2 h1
          exact (List.nodup_cons.mp hn).1 (this ▸ hu)
        rw [this]
      rw [hfil]
      simp [mainLoop, cumFold]
    · have hvV : vle v V := (List.pairwise_cons.mp hp).1 V hV'
      have hfil : (v :: vs).filter (fun u => decide (vle u V)) =
          v :: vs.filter (fun u => decide (vle u V)) := by
        rw [List.filter_cons, if_pos (by simpa using hvV)]
      rw [hfil]
      have hcf : cumFold vr d (v :: vs.filter (fun u => decide (vle u V))) =
          cumFold vr (addBucket d (bucket vr v)) (vs.filter (fun u => decide (vle u V))) := by
        simp [cumFold]
      rw [hcf]
      simp only [mainLoop]
      exact List.mem_cons_of_mem _
        (mainLoop_mounts_mem vr pf vf vs (addBucket d (bucket vr v))
          (List.pairwise_cons.mp hp).2 (List.nodup_cons.mp hn).2 V hV')

/-- The sub-application mounted for a present version `V` carries exactly the
values of the cumulative table at `V`. -/
theorem mounts_mem_tableAt (vr : List (Ver × APIRoute)) (pf vf : Nat → Nat → String)
    (V : Ver) (hV : V ∈ versionsOf vr) :
    (pf V.1 V.2, (⟨pf V.1 V.2, vf V.1 V.2, values (tableAt vr V)⟩ : SubApp))
      ∈ (mainLoop vr pf vf [] (versionsOf vr)).2.1 :=
  mainLoop_mounts_mem vr pf vf (versionsOf vr) []
    (versionsOf_pairwise vr) (versionsOf_nodup vr) V hV

theorem filter_vle_max (vr : List (Ver × APIRoute)) {vmax : Ver}
    (h : (versionsOf vr).getLast? = some vmax) :
    (versionsOf vr).filter (fun u => decide (vle u vmax)) = versionsOf vr :=
  List.filter_eq_self.mpr (fun u hu => by
    simpa using pairwise_vle_getLast (versionsOf_pairwise vr) h u hu)

/-- At the highest present version the cumulative table is the fold of all
buckets — i.e. the final state of `unique_routes` after the loop. -/
theorem tableAt_max (vr : List (Ver × APIRoute)) {vmax : Ver}
    (h : (versionsOf vr).getLast? = some vmax) :
    tableAt vr vmax = cumFold vr [] (versionsOf vr) := by
  unfold tableAt
  rw [filter_vle_max vr h]

theorem VersionedFastAPI_latest_eq (routes : List BaseRoute)
    (vf pf : Nat → Nat → String) (dv : Ver) (eLeg : Bool) {vmax : Ver}
    (h : (versionsOf (versionRoutesOf routes dv)).getLast? = some vmax) :
    VersionedFastAPI routes vf pf dv true eLeg =
      .ok ⟨(mainLoop (versionRoutesOf routes dv) pf vf []
              (versionsOf (versionRoutesOf routes dv))).2.1
            ++ [("/latest", ⟨"/latest", vf vmax.1 vmax.2,
                 values (tableAt (versionRoutesOf routes dv) vmax)⟩)],
           routes.filterMap getMnt,
           (mainLoop (versionRoutesOf routes dv) pf vf []
              (versionsOf (versionRoutesOf routes dv))).2.2⟩ := by
  unfold VersionedFastAPI
  simp only [Bool.true_or, if_true, h, mainLoop_fst, tableAt_max _ h]

theorem VersionedFastAPI_latest_error (routes : List BaseRoute)
    (vf pf : Nat → Nat → String) (dv : Ver) (eLeg : Bool)
    (h : versionRoutesOf routes dv = []) :
    VersionedFastAPI routes vf pf dv true eLeg =
      .error "UnboundLocalError: version referenced before assignment" := by
  unfold VersionedFastAPI
  have hv : versionsOf (versionRoutesOf routes dv) = [] := by
    rw [versionsOf_eq_nil_iff]; exact h
  simp only [hv, Bool.true_or, if_true, List.getLast?_nil]

theorem VersionedFastAPI_legacy_eq (routes : List BaseRoute)
    (vf pf : Nat → Nat → String) (dv : Ver) {vmax : Ver}
    (h : (versionsOf (versionRoutesOf routes dv)).getLast? = some vmax) :
    VersionedFastAPI routes vf pf dv false true =
      .ok ⟨(mainLoop (versionRoutesOf routes dv) pf vf []
              (versionsOf (versionRoutesOf routes dv))).2.1
            ++ [("", ⟨"", vf dv.1 dv.2,
                 values (tableAt (versionRoutesOf routes dv) vmax)⟩)],
           routes.filterMap getMnt,
           (mainLoop (versionRoutesOf routes dv) pf vf []
              (versionsOf (versionRoutesOf routes dv))).2.2⟩ := by
  unfold VersionedFastAPI
  simp [mainLoop_fst, tableAt_max _ h]

theorem VersionedFastAPI_none_eq (routes : List BaseRoute)
    (vf pf : Nat → Nat → String) (dv : Ver) :
    VersionedFastAPI routes vf pf dv false false =
      .ok ⟨(mainLoop (versionRoutesOf routes dv) pf vf []
              (versionsOf (versionRoutesOf routes dv))).2.1,
           [],
           (mainLoop (versionRoutesOf routes dv) pf vf []
              (versionsOf (versionRoutesOf routes dv))).2.2⟩ := by
  unfold VersionedFastAPI
  simp

theorem VersionedFastAPI_legacy_eq' (routes : List BaseRoute)
    (vf pf : Nat → Nat → String) (dv : Ver) :
    VersionedFastAPI routes vf pf dv false true =
      .ok ⟨(mainLoop (versionRoutesOf routes dv) pf vf []
              (versionsOf (versionRoutesOf routes dv))).2.1
            ++ [("", ⟨"", vf dv.1 dv.2,
                 values ((mainLoop (versionRoutesOf routes dv) pf vf []
                   (versionsOf (versionRoutesOf routes dv))).1)⟩)],
           routes.filterMap getMnt,
           (mainLoop (versionRoutesOf routes dv) pf vf []
              (versionsOf (versionRoutesOf routes dv))).2.2⟩ := by
  unfold VersionedFastAPI
  simp

/-- Shape of every successful composition: the loop's mounts, possibly
followed by a single alias mount carrying the values of the final
`unique_routes`; static remounts are either absent (no alias branch) or
exactly the input's `Mount`s. -/
theorem VersionedFastAPI_ok_structure (routes : List BaseRoute)
    (vf pf : Nat → Nat → String) (dv : Ver) (eLat eLeg : Bool) (p : ParentApp)
    (h : VersionedFastAPI routes vf pf dv eLat eLeg = .ok p) :
    (p.mounts = (mainLoop (versionRoutesOf routes dv) pf vf []
        (versionsOf (versionRoutesOf routes dv))).2.1 ∨
     ∃ q sem, p.mounts = (mainLoop (versionRoutesOf routes dv) pf vf []
        (versionsOf (versionRoutesOf routes dv))).2.1 ++
        [(q, ⟨q, sem, values ((mainLoop (versionRoutesOf routes dv) pf vf []
            (versionsOf (versionRoutesOf routes dv))).1)⟩)]) ∧
    (p.staticRemounts = [] ∨ p.staticRemounts = routes.filterMap getMnt) := by
  cases eLat with
  | true =>
    cases hg : (versionsOf (versionRoutesOf routes dv)).getLast? with
    | none =>
      have hnil : versionRoutesOf routes dv = [] :=
        versionsOf_eq_nil_iff.mp (List.getLast?_eq_none_iff.mp hg)
      rw [VersionedFastAPI_latest_error routes vf pf dv eLeg hnil] at h
      exact Except.noConfusion h
    | some v =>
      rw [VersionedFastAPI_latest_eq routes vf pf dv eLeg hg] at h
      have h2 := (Except.ok.inj h).symm
      subst h2
      refine ⟨Or.inr ⟨"/latest", vf v.1 v.2, ?_⟩, Or.inr rfl⟩
      rw [tableAt_max _ hg, ← mainLoop_fst]
  | false =>
    cases eLeg with
    | true =>
      rw [VersionedFastAPI_legacy_eq' routes vf pf dv] at h
      have h2 := (Except.ok.inj h).symm
      subst h2
      exact ⟨Or.inr ⟨"", vf dv.1 dv.2, rfl⟩, Or.inr rfl⟩
    | false =>
      rw [VersionedFastAPI_none_eq routes vf pf dv] at h
      have h2 := (Except.ok.inj h).symm
      subst h2
      exact ⟨Or.inl rfl, Or.inl rfl⟩

theorem dictInsert_forall {Q : APIRoute → Prop} :
    ∀ {d : Table} {k : String} {v : APIRoute}, Q v → (∀ p ∈ d, Q p.2) →
      ∀ p ∈ dictInsert d k v, Q p.2
  | [], k, v, hv, _, p, hp => by
    simp [dictInsert] at hp
    rw [hp]
    exact hv
  | q :: rest, k, v, hv, hd, p, hp => by
    simp only [dictInsert] at hp
    by_cases hq : q.1 = k
    · rw [if_pos hq] at hp
      rcases List.mem_cons.mp hp with h' | hp'
      · rw [h']; exact hv
      · exact hd p (List.mem_cons_of_mem q hp')
    · rw [if_neg hq] at hp
      rcases List.mem_cons.mp hp with h' | hp'
      · rw [h']; exact hd q (List.mem_cons_self q rest)
      · exact dictInsert_forall hv (fun x hx => hd x (List.mem_cons_of_mem q hx)) p hp'

theorem addRoute_forall_aux {Q : APIRoute → Prop} (pa : String) (r : APIRoute) (hr : Q r) :
    ∀ (ms : List String) (d : Table), (∀ p ∈ d, Q p.2) →
      ∀ p ∈ ms.foldl (fun d m => dictInsert d (routeKey pa m) r) d, Q p.2
  | [], _, hd, p, hp => hd p hp
  | m :: ms, d, hd, p, hp => by
    simp only [List.foldl_cons] at hp
    exact addRoute_forall_aux pa r hr ms _ (dictInsert_forall hr hd) p hp

theorem addRoute_forall {Q : APIRoute → Prop} {d : Table} {r : APIRoute}
    (hr : Q r) (hd : ∀ p ∈ d, Q p.2) : ∀ p ∈ addRoute d r, Q p.2 :=
  addRoute_forall_aux r.path r hr r.methods d hd

theorem addBucket_forall {Q : APIRoute → Prop} :
    ∀ (rs : List APIRoute) (d : Table), (∀ r ∈ rs, Q r) → (∀ p ∈ d, Q p.2) →
      ∀ p ∈ addBucket d rs, Q p.2
  | [], _, _, hd, p, hp => hd p hp
  | r :: rs, d, hrs, hd, p, hp => by
    simp only [addBucket, List.foldl_cons] at hp
    exact addBucket_forall rs _
      (fun x hx => hrs x (List.mem_cons_of_mem r hx))
      (addRoute_forall (hrs r (List.mem_cons_self r rs)) hd) p hp

theorem cumFold_forall {Q : APIRoute → Prop} (vr : List (Ver × APIRoute)) :
    ∀ (vs : List Ver) (d : Table),
      (∀ v ∈ vs, ∀ r ∈ bucket vr v, Q r) → (∀ p ∈ d, Q p.2) →
      ∀ p ∈ cumFold vr d vs, Q p.2
  | [], _, _, hd, p, hp => hd p hp
  | v :: vs, d, hvs, hd, p, hp => by
    simp only [cumFold, List.foldl_cons] at hp
    exact cumFold_forall vr vs _
      (fun u hu => hvs u (List.mem_cons_of_mem v hu))
      (addBucket_forall _ _ (hvs v (List.mem_cons_self v vs)) hd) p hp

theorem mainLoop_routes_forall {Q : APIRoute → Prop}
    (vr : List (Ver × APIRoute)) (pf vf : Nat → Nat → String) :
    ∀ (vs : List Ver) (d : Table),
      (∀ v ∈ vs, ∀ r ∈ bucket vr v, Q r) → (∀ p ∈ d, Q p.2) →
      ∀ e ∈ (mainLoop vr pf vf d vs).2.1, ∀ r ∈ e.2.routes, Q r
  | [], _, _, _, e, he => absurd he (List.not_mem_nil e)
  | v :: vs, d, hvs, hd, e, he => by
    simp only [mainLoop] at he
    have hd' : ∀ p ∈ addBucket d (bucket vr v), Q p.2 :=
      addBucket_forall _ _ (hvs v (List.mem_cons_self v vs)) hd
    rcases List.mem_cons.mp he with rfl | he'
    · intro r hr
      obtain ⟨p, hp, hpr⟩ := List.mem_map.mp hr
      exact hpr ▸ hd' p hp
    · exact mainLoop_routes_forall vr pf vf vs _
        (fun u hu => hvs u (List.mem_cons_of_mem v hu)) hd' e he'

theorem mem_versionRoutesOf {routes : List BaseRoute} {dv : Ver}
    {pr : Ver × APIRoute} (h : pr ∈ versionRoutesOf routes dv) :
    BaseRoute.api pr.2 ∈ routes := by
  obtain ⟨r0, hr0, hpr⟩ := List.mem_map.mp h
  obtain ⟨b, hb, hbr⟩ := List.mem_filterMap.mp hr0
  cases b with
  | api a =>
    simp only [getAPI, Option.some.injEq] at hbr
    have : pr.2 = a := by rw [← hpr, version_to_route, ← hbr]
    rw [this]
    exact hb
  | mnt m => simp [getAPI] at hbr
  | other n => simp [getAPI] at hbr

theorem bucket_mem_routes {routes : List BaseRoute} {dv v : Ver} {r : APIRoute}
    (h : r ∈ bucket (versionRoutesOf routes dv) v) : BaseRoute.api r ∈ routes := by
  obtain ⟨pr, hpr, hpr2⟩ := List.mem_map.mp h
  exact hpr2 ▸ mem_versionRoutesOf (List.mem_of_mem_filter hpr)

/-- C9: every route materialized in any mounted sub-application (versioned or
alias) originates from an `APIRoute` of the input, and every static remount
originates from a `Mount` of the input.  A route that is neither — a bare
route or a websocket route, `BaseRoute.other` — therefore appears nowhere in
the composed output. -/
theorem c9_non_api_non_mount_excluded (routes : List BaseRoute)
    (vf pf : Nat → Nat → String) (dv : Ver) (eLat eLeg : Bool) (p : ParentApp)
    (h : VersionedFastAPI routes vf pf dv eLat eLeg = .ok p) :
    (∀ e ∈ p.mounts, ∀ r ∈ e.2.routes, BaseRoute.api r ∈ routes) ∧
    (∀ m ∈ p.staticRemounts, BaseRoute.mnt m ∈ routes) := by
  obtain ⟨hm, hs⟩ := VersionedFastAPI_ok_structure routes vf pf dv eLat eLeg p h
  constructor
  · intro e he r hr
    have hbuck : ∀ v ∈ versionsOf (versionRoutesOf routes dv),
        ∀ r ∈ bucket (versionRoutesOf routes dv) v, BaseRoute.api r ∈ routes :=
      fun v _ r hrb => bucket_mem_routes hrb
    have hloop := mainLoop_routes_forall (Q := fun r => BaseRoute.api r ∈ routes)
      (versionRoutesOf routes dv) pf vf (versionsOf (versionRoutesOf routes dv)) []
      hbuck (by intro x hx; simp at hx)
    rcases hm with hm | ⟨q, sem, hm⟩
    · rw [hm] at he
      exact hloop e he r hr
    · rw [hm] at he
      rcases List.mem_append.mp he with he' | he'
      · exact hloop e he' r hr
      · have he2 : e = (q, ⟨q, sem, values ((mainLoop (versionRoutesOf routes dv) pf vf []
            (versionsOf (versionRoutesOf routes dv))).1)⟩) := by simpa using he'
        rw [he2] at hr
        simp only [values, mainLoop_fst] at hr
        obtain ⟨pr, hpr, hpr2⟩ := List.mem_map.mp hr
        exact hpr2 ▸ cumFold_forall (Q := fun r => BaseRoute.api r ∈ routes)
          (versionRoutesOf routes dv) (versionsOf (versionRoutesOf routes dv)) []
          hbuck (by intro x hx; simp at hx) pr hpr
  · intro m hm'
    rcases hs with hs | hs
    · rw [hs] at hm'
      exact absurd hm' (List.not_mem_nil m)
    · rw [hs] at hm'
      obtain ⟨b, hb, hbm⟩ := List.mem_filterMap.mp hm'
      cases b with
      | api a => simp [getMnt] at hbm
      | mnt m0 =>
        simp only [getMnt, Option.some.injEq] at hbm
        rw [← hbm]
        exact hb
      | other n => simp [getMnt] at hbm

/-! ### Concrete fixtures used by witnesses and counterexamples -/

/-- `GET /items` tagged `(1, 0)`. -/
def rItems : APIRoute := ⟨"/items", ["GET"], some (1, 0), 0⟩

/-- `GET /a` tagged `(1, 0)`. -/
def rA : APIRoute := ⟨"/a", ["GET"], some (1, 0), 1⟩

/-- `GET /b` tagged `(2, 0)`. -/
def rB : APIRoute := ⟨"/b", ["GET"], some (2, 0), 2⟩

/-- `GET /a` tagged `(2, 0)` — overrides `rA` at version `(2, 0)`. -/
def rA2 : APIRoute := ⟨"/a", ["GET"], some (2, 0), 3⟩

/-- `GET|POST /m` tagged `(1, 0)` — a multi-method route. -/
def rMulti : APIRoute := ⟨"/m", ["GET", "POST"], some (1, 0), 4⟩

/-- `POST /m` tagged `(2, 0)` — overrides only the `POST` method of `rMulti`. -/
def rMultiPost : APIRoute := ⟨"/m", ["POST"], some (2, 0), 5⟩

/-- `GET /c` tagged `(1, 1)`. -/
def rC11 : APIRoute := ⟨"/c", ["GET"], some (1, 1), 6⟩

/-- A static mount at `/static`. -/
def mStatic : MountR := ⟨"/static", 0, "static"⟩

/-- Witness for C9 at a concrete input holding an `APIRoute`, an `other`
route and a `Mount`, with the legacy alias enabled. -/
theorem c9_witness :
    (∀ e ∈ (ParentApp.mk
        [("/v1_0", ⟨"/v1_0", "1.0", [rA]⟩), ("", ⟨"", "1.0", [rA]⟩)]
        [mStatic] ["/v1_0/openapi.json", "/v1_0/docs"]).mounts,
      ∀ r ∈ e.2.routes,
        BaseRoute.api r ∈ [BaseRoute.api rA, BaseRoute.other 7, BaseRoute.mnt mStatic]) ∧
    (∀ m ∈ (ParentApp.mk
        [("/v1_0", ⟨"/v1_0", "1.0", [rA]⟩), ("", ⟨"", "1.0", [rA]⟩)]
        [mStatic] ["/v1_0/openapi.json", "/v1_0/docs"]).staticRemounts,
      BaseRoute.mnt m ∈ [BaseRoute.api rA, BaseRoute.other 7, BaseRoute.mnt mStatic]) :=
  c9_non_api_non_mount_excluded
    [BaseRoute.api rA, BaseRoute.other 7, BaseRoute.mnt mStatic]
    defaultVerFmt defaultPfxFmt (1, 0) false true _ (by rfl)

theorem tblGet_mem : ∀ {d : Table} {k : String} {r : APIRoute},
    tblGet d k = some r → (k, r) ∈ d
  | [], _, _, h => by simp [tblGet] at h
  | p :: rest, k, r, h => by
    simp only [tblGet] at h
    by_cases hp : p.1 = k
    · rw [if_pos hp] at h
      have hpr : p = (k, r) := Prod.ext hp (Option.some.inj h)
      rw [← hpr]
      exact List.mem_cons_self p rest
    · rw [if_neg hp] at h
      exact List.mem_cons_of_mem p (tblGet_mem h)

theorem mem_keys_dictInsert : ∀ {d : Table} {k : String} {v : APIRoute} {x : String},
    x ∈ (dictInsert d k v).map Prod.fst → x ∈ d.map Prod.fst ∨ x = k
  | [], k, v, x, h => by
    simp [dictInsert] at h
    exact Or.inr h
  | q :: rest, k, v, x, h => by
    simp only [dictInsert] at h
    by_cases hq : q.1 = k
    · rw [if_pos hq] at h
      rcases List.mem_cons.mp h with h' | h'
      · exact Or.inr h'
      · exact Or.inl (by simp only [List.map_cons, List.mem_cons]; exact Or.inr h')
    · rw [if_neg hq] at h
      rcases List.mem_cons.mp h with h' | h'
      · exact Or.inl (by simp only [List.map_cons, List.mem_cons]; exact Or.inl h')
      · rcases mem_keys_dictInsert h' with h2 | h2
        · exact Or.inl (by simp only [List.map_cons, List.mem_cons]; exact Or.inr h2)
        · exact Or.inr h2

theorem keys_nodup_dictInsert : ∀ {d : Table} {k : String} {v : APIRoute},
    (d.map Prod.fst).Nodup → ((dictInsert d k v).map Prod.fst).Nodup
  | [], k, v, _ => by simp [dictInsert]
  | q :: rest, k, v, h => by
    simp only [List.map_cons, List.nodup_cons] at h
    simp only [dictInsert]
    by_cases hq : q.1 = k
    · rw [if_pos hq]
      simp only [List.map_cons, List.nodup_cons]
      exact ⟨hq ▸ h.1, h.2⟩
    · rw [if_neg hq]
      simp only [List.map_cons, List.nodup_cons]
      refine ⟨?_, keys_nodup_dictInsert h.2⟩
      intro hmem
      rcases mem_keys_dictInsert hmem with h2 | h2
      · exact h.1 h2
      · exact hq h2

theorem keys_nodup_addRoute_aux (pa : String) (r : APIRoute) :
    ∀ (ms : List String) (d : Table), (d.map Prod.fst).Nodup →
      ((ms.foldl (fun d m => dictInsert d (routeKey pa m) r) d).map Prod.fst).Nodup
  | [], _, h => h
  | m :: ms, d, h => by
    simp only [List.foldl_cons]
    exact keys_nodup_addRoute_aux pa r ms _ (keys_nodup_dictInsert h)

theorem keys_nodup_addBucket : ∀ (rs : List APIRoute) (d : Table),
    (d.map Prod.fst).Nodup → ((addBucket d rs).map Prod.fst).Nodup
  | [], _, h => h
  | r :: rs, d, h => by
    simp only [addBucket, List.foldl_cons]
    exact keys_nodup_addBucket rs _ (keys_nodup_addRoute_aux r.path r r.methods d h)

theorem keys_nodup_cumFold (vr : List (Ver × APIRoute)) :
    ∀ (vs : List Ver) (d : Table),
      (d.map Prod.fst).Nodup → ((cumFold vr d vs).map Prod.fst).Nodup
  | [], _, h => h
  | v :: vs, d, h => by
    simp only [cumFold, List.foldl_cons]
    exact keys_nodup_cumFold vr vs _ (keys_nodup_addBucket (bucket vr v) d h)

/-- `unique_routes` has pairwise-distinct keys. -/
theorem tableAt_keys_nodup (vr : List (Ver × APIRoute)) (V : Ver) :
    ((tableAt vr V).map Prod.fst).Nodup :=
  keys_nodup_cumFold vr _ [] (by simp)

theorem dictInsert_forall_pair {P : String × APIRoute → Prop} :
    ∀ {d : Table} {k : String} {v : APIRoute}, P (k, v) → (∀ p ∈ d, P p) →
      ∀ p ∈ dictInsert d k v, P p
  | [], k, v, hv, _, p, hp => by
    simp [dictInsert] at hp
    rw [hp]
    exact hv
  | q :: rest, k, v, hv, hd, p, hp => by
    simp only [dictInsert] at hp
    by_cases hq : q.1 = k
    · rw [if_pos hq] at hp
      rcases List.mem_cons.mp hp with h' | hp'
      · rw [h']; exact hv
      · exact hd p (List.mem_cons_of_mem q hp')
    · rw [if_neg hq] at hp
      rcases List.mem_cons.mp hp with h' | hp'
      · rw [h']; exact hd q (List.mem_cons_self q rest)
      · exact dictInsert_forall_pair hv (fun x hx => hd x (List.mem_cons_of_mem q hx)) p hp'

theorem addRoute_wf_aux (pa : String) (r : APIRoute)
    (hr : ∀ m ∈ r.methods, rDefines r (routeKey pa m) = true) :
    ∀ (ms : List String) (d : Table), (∀ m ∈ ms, m ∈ r.methods) →
      (∀ p ∈ d, rDefines p.2 p.1 = true) →
      ∀ p ∈ ms.foldl (fun d m => dictInsert d (routeKey pa m) r) d, rDefines p.2 p.1 = true
  | [], _, _, hd, p, hp => hd p hp
  | m :: ms, d, hms, hd, p, hp => by
    simp only [List.foldl_cons] at hp
    exact addRoute_wf_aux pa r hr ms _
      (fun x hx => hms x (List.mem_cons_of_mem m hx))
      (dictInsert_forall_pair (hr m (hms m (List.mem_cons_self m ms))) hd) p hp

theorem addRoute_wf {d : Table} {r : APIRoute}
    (hd : ∀ p ∈ d, rDefines p.2 p.1 = true) :
    ∀ p ∈ addRoute d r, rDefines p.2 p.1 = true := by
  refine addRoute_wf_aux r.path r ?_ r.methods d (fun m hm => hm) hd
  intro m hm
  unfold rDefines
  rw [List.any_eq_true]
  exact ⟨m, hm, by simp⟩

theorem addBucket_wf : ∀ (rs : List APIRoute) (d : Table),
    (∀ p ∈ d, rDefines p.2 p.1 = true) →
    ∀ p ∈ addBucket d rs, rDefines p.2 p.1 = true
  | [], _, hd, p, hp => hd p hp
  | r :: rs, d, hd, p, hp => by
    simp only [addBucket, List.foldl_cons] at hp
    exact addBucket_wf rs _ (addRoute_wf hd) p hp

theorem cumFold_wf (vr : List (Ver × APIRoute)) : ∀ (vs : List Ver) (d : Table),
    (∀ p ∈ d, rDefines p.2 p.1 = true) →
    ∀ p ∈ cumFold vr d vs, rDefines p.2 p.1 = true
  | [], _, hd, p, hp => hd p hp
  | v :: vs, d, hd, p, hp => by
    simp only [cumFold, List.foldl_cons] at hp
    exact cumFold_wf vr vs _ (addBucket_wf (bucket vr v) d hd) p hp

/-- Every entry of `unique_routes` is keyed by one of its own route's
`(path, method)` keys. -/
theorem tableAt_wf (vr : List (Ver × APIRoute)) (V : Ver) :
    ∀ p ∈ tableAt vr V, rDefines p.2 p.1 = true :=
  cumFold_wf vr _ [] (by intro p hp; simp at hp)

theorem routeKey_injective (pa : String) : Function.Injective (routeKey pa) := by
  intro m m' h
  unfold routeKey at h
  have h2 := congrArg String.data h
  simp only [String.data_append, List.append_assoc] at h2
  exact String.ext (List.append_cancel_left (List.append_cancel_left h2))

/-- If `r` is the winning value of every one of its own `(path, method)` keys
in the table `d`, it occurs in the table's value list exactly once per
method. -/
theorem count_values_eq_methods_length (d : Table) (r : APIRoute)
    (hkeys : (d.map Prod.fst).Nodup)
    (hwf : ∀ p ∈ d, rDefines p.2 p.1 = true)
    (hmn : r.methods.Nodup)
    (hwin : ∀ m ∈ r.methods, tblGet d (routeKey r.path m) = some r) :
    (values d).count r = r.methods.length := by
  have hcount : (values d).count r = (d.filter (fun p => p.2 == r)).length := by
    unfold values
    rw [List.count_eq_countP, List.countP_map, List.countP_eq_length_filter]
    rfl
  have hkeysS : ((d.filter (fun p => p.2 == r)).map Prod.fst).Nodup :=
    List.Nodup.sublist (List.Sublist.map Prod.fst (List.filter_sublist d)) hkeys
  have hsub1 : ((d.filter (fun p => p.2 == r)).map Prod.fst) ⊆
      r.methods.map (routeKey r.path) := by
    intro x hx
    obtain ⟨p, hp, hpx⟩ := List.mem_map.mp hx
    have hpd := List.mem_of_mem_filter hp
    have hpr : p.2 = r := by simpa using List.of_mem_filter hp
    have hdef := hwf p hpd
    rw [hpr] at hdef
    unfold rDefines at hdef
    rw [List.any_eq_true] at hdef
    obtain ⟨m, hm, hkey⟩ := hdef
    rw [beq_iff_eq] at hkey
    exact List.mem_map.mpr ⟨m, hm, by rw [hkey, hpx]⟩
  have hsub2 : r.methods.map (routeKey r.path) ⊆
      (d.filter (fun p => p.2 == r)).map Prod.fst := by
    intro y hy
    obtain ⟨m, hm, hmy⟩ := List.mem_map.mp hy
    have hmem := tblGet_mem (hwin m hm)
    have hS : (routeKey r.path m, r) ∈ d.filter (fun p => p.2 == r) :=
      List.mem_filter.mpr ⟨hmem, by simp⟩
    exact List.mem_map.mpr ⟨(routeKey r.path m, r), hS, hmy⟩
  have hnodM : (r.methods.map (routeKey r.path)).Nodup :=
    List.Nodup.map (routeKey_injective r.path) hmn
  have l1 := (List.Nodup.subperm hkeysS hsub1).length_le
  have l2 := (List.Nodup.subperm hnodM hsub2).length_le
  simp only [List.length_map] at l1 l2
  rw [hcount]
  omega

/-! ### Claim theorems -/

/-- C1 counterexample: with `rA` tagged `(1,0)` and `rB` tagged `(2,0)`,
`default_version = (1,0)` and `enable_legacy=true`, the alias mounted at the
root prefix (last mount, prefix `""`) has route list `[rA, rB]`: it contains
`rB`, whose key `/b|GET` is defined only at the higher version `(2,0)` and is
absent from the cumulative table of `default_version` — contradicting the
claim that the alias exposes exactly the cumulative table of
`default_version` with no key from any higher version. -/
theorem c1_counterexample :
    VersionedFastAPI [BaseRoute.api rA, BaseRoute.api rB]
        defaultVerFmt defaultPfxFmt (1, 0) false true =
      .ok ⟨[("/v1_0", ⟨"/v1_0", "1.0", [rA]⟩), ("/v2_0", ⟨"/v2_0", "2.0", [rA, rB]⟩),
            ("", ⟨"", "1.0", [rA, rB]⟩)], [],
           ["/v1_0/openapi.json", "/v1_0/docs", "/v2_0/openapi.json", "/v2_0/docs"]⟩ ∧
    tblGet (tableAt (versionRoutesOf [BaseRoute.api rA, BaseRoute.api rB] (1, 0)) (1, 0))
      (routeKey "/b" "GET") = none ∧
    tblGet (tableAt (versionRoutesOf [BaseRoute.api rA, BaseRoute.api rB] (1, 0)) (2, 0))
      (routeKey "/b" "GET") = some rB :=
  ⟨rfl, rfl, rfl⟩

/-- C1 amended: with `enable_legacy=true` (and `enable_latest=false`) and at
least one versionable route, the alias is mounted at the root prefix `""`
(as the final mount), but its route set is the value list of the final
`unique_routes` — the cumulative route table of the *highest* version
present, not that of `default_version`.  Only the alias's semantic version
label is formatted from `default_version`. -/
theorem c1_legacy_alias_highest_table (routes : List BaseRoute)
    (vf pf : Nat → Nat → String) (dv : Ver)
    (hne : versionRoutesOf routes dv ≠ []) :
    ∃ vmax, (versionsOf (versionRoutesOf routes dv)).getLast? = some vmax ∧
      VersionedFastAPI routes vf pf dv false true =
        .ok ⟨(mainLoop (versionRoutesOf routes dv) pf vf []
                (versionsOf (versionRoutesOf routes dv))).2.1
              ++ [("", ⟨"", vf dv.1 dv.2,
                   values (tableAt (versionRoutesOf routes dv) vmax)⟩)],
             routes.filterMap getMnt,
             (mainLoop (versionRoutesOf routes dv) pf vf []
                (versionsOf (versionRoutesOf routes dv))).2.2⟩ := by
  have hv : versionsOf (versionRoutesOf routes dv) ≠ [] :=
    fun hnil => hne (versionsOf_eq_nil_iff.mp hnil)
  cases hg : (versionsOf (versionRoutesOf routes dv)).getLast? with
  | none => exact absurd (List.getLast?_eq_none_iff.mp hg) hv
  | some vmax => exact ⟨vmax, rfl, VersionedFastAPI_legacy_eq routes vf pf dv hg⟩

/-- Witness for the amended C1 at the two-version input. -/
theorem c1_witness :
    versionRoutesOf [BaseRoute.api rA, BaseRoute.api rB] (1, 0) ≠ [] ∧
    (∃ vmax, (versionsOf (versionRoutesOf [BaseRoute.api rA, BaseRoute.api rB] (1, 0))).getLast?
        = some vmax ∧
      VersionedFastAPI [BaseRoute.api rA, BaseRoute.api rB]
          defaultVerFmt defaultPfxFmt (1, 0) false true =
        .ok ⟨(mainLoop (versionRoutesOf [BaseRoute.api rA, BaseRoute.api rB] (1, 0))
                defaultPfxFmt defaultVerFmt []
                (versionsOf (versionRoutesOf [BaseRoute.api rA, BaseRoute.api rB] (1, 0)))).2.1
              ++ [("", ⟨"", defaultVerFmt 1 0,
                   values (tableAt (versionRoutesOf [BaseRoute.api rA, BaseRoute.api rB] (1, 0))
                     vmax)⟩)],
             [BaseRoute.api rA, BaseRoute.api rB].filterMap getMnt,
             (mainLoop (versionRoutesOf [BaseRoute.api rA, BaseRoute.api rB] (1, 0))
                defaultPfxFmt defaultVerFmt []
                (versionsOf (versionRoutesOf [BaseRoute.api rA, BaseRoute.api rB] (1, 0)))).2.2⟩) :=
  ⟨by decide, c1_legacy_alias_highest_table [BaseRoute.api rA, BaseRoute.api rB]
    defaultVerFmt defaultPfxFmt (1, 0) (by decide)⟩

/-- C2, evaluated: with no versionable routes (only a static mount at
`/static`) composition without an alias yields zero sub-applications, and a
legacy alias mounts at the root with zero routes and remounts `/static` —
but requesting the `latest` alias in this state makes the code evaluate the
never-bound loop variable `version` and crash with `UnboundLocalError`
instead of mounting an empty alias as the claim states. -/
theorem c2_no_versionable_routes_eval :
    VersionedFastAPI [BaseRoute.mnt mStatic] defaultVerFmt defaultPfxFmt (1, 0) false false =
      .ok ⟨[], [], []⟩ ∧
    VersionedFastAPI [BaseRoute.mnt mStatic] defaultVerFmt defaultPfxFmt (1, 0) false true =
      .ok ⟨[("", ⟨"", "1.0", []⟩)], [mStatic], []⟩ ∧
    VersionedFastAPI [BaseRoute.mnt mStatic] defaultVerFmt defaultPfxFmt (1, 0) true false =
      .error "UnboundLocalError: version referenced before assignment" :=
  ⟨rfl, rfl, rfl⟩

/-- Witness for C4: `rA2` at `(2,0)` overrides `rA` at `(1,0)` for key
`/a|GET`; at `V = (2,0)` the winning version is `(2,0)`. -/
theorem c4_witness :
    ((2, 0) ∈ versionsOf (versionRoutesOf [BaseRoute.api rA, BaseRoute.api rA2] (1, 0)) ∧
     winningVersion (versionRoutesOf [BaseRoute.api rA, BaseRoute.api rA2] (1, 0)) (2, 0)
       (routeKey "/a" "GET") = some (2, 0)) ∧
    ((2, 0) ∈ versionsOf (versionRoutesOf [BaseRoute.api rA, BaseRoute.api rA2] (1, 0)) ∧
     vle (2, 0) (2, 0) ∧
     (∃ r, tblGet (tableAt (versionRoutesOf [BaseRoute.api rA, BaseRoute.api rA2] (1, 0)) (2, 0))
         (routeKey "/a" "GET") = some r ∧
       r ∈ bucket (versionRoutesOf [BaseRoute.api rA, BaseRoute.api rA2] (1, 0)) (2, 0) ∧
       rDefines r (routeKey "/a" "GET") = true) ∧
     (∀ u', u' ∈ versionsOf (versionRoutesOf [BaseRoute.api rA, BaseRoute.api rA2] (1, 0)) →
       vle u' (2, 0) →
       definers (versionRoutesOf [BaseRoute.api rA, BaseRoute.api rA2] (1, 0)) u'
         (routeKey "/a" "GET") ≠ [] → vle u' (2, 0))) :=
  ⟨⟨by decide, by decide⟩,
   c4_cumulative_last_write_wins (versionRoutesOf [BaseRoute.api rA, BaseRoute.api rA2] (1, 0))
     (2, 0) (2, 0) (routeKey "/a" "GET") (by decide) (by decide)⟩

/-- Witness for C5: `rA`'s key `/a|GET`, visible at `(1,0)`, is not touched
by version `(2,0)` (which only adds `/b`), so it is still mapped to `rA` at
`(2,0)`. -/
theorem c5_witness :
    tblGet (tableAt (versionRoutesOf [BaseRoute.api rA, BaseRoute.api rB] (1, 0)) (2, 0))
      (routeKey "/a" "GET") = some rA :=
  c5_monotonic_inheritance (versionRoutesOf [BaseRoute.api rA, BaseRoute.api rB] (1, 0))
    (1, 0) (2, 0) (routeKey "/a" "GET") rA
    (by decide) (by decide) (by decide) (by decide) (by decide)

/-- C6: with `enable_latest=true` and at least one versionable route, the
alias is mounted at the fixed prefix `/latest` as the single final mount
(no legacy alias is produced, whatever `enable_legacy` is), and its route
set is the value list of the cumulative route table of the highest version
present. -/
theorem c6_latest_alias (routes : List BaseRoute)
    (vf pf : Nat → Nat → String) (dv : Ver) (eLeg : Bool)
    (hne : versionRoutesOf routes dv ≠ []) :
    ∃ vmax, (versionsOf (versionRoutesOf routes dv)).getLast? = some vmax ∧
      VersionedFastAPI routes vf pf dv true eLeg =
        .ok ⟨(mainLoop (versionRoutesOf routes dv) pf vf []
                (versionsOf (versionRoutesOf routes dv))).2.1
              ++ [("/latest", ⟨"/latest", vf vmax.1 vmax.2,
                   values (tableAt (versionRoutesOf routes dv) vmax)⟩)],
             routes.filterMap getMnt,
             (mainLoop (versionRoutesOf routes dv) pf vf []
                (versionsOf (versionRoutesOf routes dv))).2.2⟩ := by
  have hv : versionsOf (versionRoutesOf routes dv) ≠ [] :=
    fun hnil => hne (versionsOf_eq_nil_iff.mp hnil)
  cases hg : (versionsOf (versionRoutesOf routes dv)).getLast? with
  | none => exact absurd (List.getLast?_eq_none_iff.mp hg) hv
  | some vmax => exact ⟨vmax, rfl, VersionedFastAPI_latest_eq routes vf pf dv eLeg hg⟩

/-- Witness for C6 at the two-version input with both flags set: latest
takes precedence. -/
theorem c6_witness :
    versionRoutesOf [BaseRoute.api rA, BaseRoute.api rB] (1, 0) ≠ [] ∧
    (∃ vmax, (versionsOf (versionRoutesOf [BaseRoute.api rA, BaseRoute.api rB] (1, 0))).getLast?
        = some vmax ∧
      VersionedFastAPI [BaseRoute.api rA, BaseRoute.api rB]
          defaultVerFmt defaultPfxFmt (1, 0) true true =
        .ok ⟨(mainLoop (versionRoutesOf [BaseRoute.api rA, BaseRoute.api rB] (1, 0))
                defaultPfxFmt defaultVerFmt []
                (versionsOf (versionRoutesOf [BaseRoute.api rA, BaseRoute.api rB] (1, 0)))).2.1
              ++ [("/latest", ⟨"/latest", defaultVerFmt vmax.1 vmax.2,
                   values (tableAt (versionRoutesOf [BaseRoute.api rA, BaseRoute.api rB] (1, 0))
                     vmax)⟩)],
             [BaseRoute.api rA, BaseRoute.api rB].filterMap getMnt,
             (mainLoop (versionRoutesOf [BaseRoute.api rA, BaseRoute.api rB] (1, 0))
                defaultPfxFmt defaultVerFmt []
                (versionsOf (versionRoutesOf [BaseRoute.api rA, BaseRoute.api rB] (1, 0)))).2.2⟩) :=
  ⟨by decide, c6_latest_alias [BaseRoute.api rA, BaseRoute.api rB]
    defaultVerFmt defaultPfxFmt (1, 0) true (by decide)⟩

/-- C8, Scenario A: one handler tagged `(1,0)` at `GET /items` with the
default configuration yields exactly one version sub-application, mounted at
prefix `/v1_0` with semantic version label `1.0`, whose route table has the
single key `/items|GET` mapped to that route. -/
theorem c8_scenario_a :
    VersionedFastAPI [BaseRoute.api rItems] defaultVerFmt defaultPfxFmt (1, 0) false false =
      .ok ⟨[("/v1_0", ⟨"/v1_0", "1.0", [rItems]⟩)], [],
           ["/v1_0/openapi.json", "/v1_0/docs"]⟩ ∧
    tableAt (versionRoutesOf [BaseRoute.api rItems] (1, 0)) (1, 0) =
      [(routeKey "/items" "GET", rItems)] :=
  ⟨rfl, rfl⟩

/-- C3 counterexample: with `prefix_format = "/v"` (a legal format string
with no placeholders) and routes at versions `(1,0)` and `(1,1)`, both
sub-applications resolve to the same prefix `/v`, yet composition succeeds
and mounts both — no configuration error is raised before (or after)
mounting. -/
theorem c3_counterexample :
    VersionedFastAPI [BaseRoute.api rA, BaseRoute.api rC11]
        defaultVerFmt (fun _ _ => "/v") (1, 0) false false =
      .ok ⟨[("/v", ⟨"/v", "1.0", [rA]⟩), ("/v", ⟨"/v", "1.1", [rA, rC11]⟩)], [],
           ["/v/openapi.json", "/v/docs", "/v/openapi.json", "/v/docs"]⟩ :=
  rfl

/-- C3 amended: composition performs no duplicate-prefix detection at all.
The only composition-time failure is the `latest`-alias crash on an input
with no versionable routes; in every other case composition succeeds and
unconditionally mounts one sub-application per present version plus the
requested alias, whatever their prefix strings are. -/
theorem c3_no_duplicate_prefix_check (routes : List BaseRoute)
    (vf pf : Nat → Nat → String) (dv : Ver) (eLat eLeg : Bool) :
    ((∃ e, VersionedFastAPI routes vf pf dv eLat eLeg = Except.error e) ↔
      (eLat = true ∧ versionRoutesOf routes dv = [])) ∧
    (∀ p, VersionedFastAPI routes vf pf dv eLat eLeg = .ok p →
      p.mounts.length = (versionsOf (versionRoutesOf routes dv)).length +
        (if eLat || eLeg then 1 else 0)) := by
  cases eLat with
  | true =>
    cases hg : (versionsOf (versionRoutesOf routes dv)).getLast? with
    | none =>
      have hnil := versionsOf_eq_nil_iff.mp (List.getLast?_eq_none_iff.mp hg)
      constructor
      · constructor
        · intro _; exact ⟨rfl, hnil⟩
        · intro _
          exact ⟨_, VersionedFastAPI_latest_error routes vf pf dv eLeg hnil⟩
      · intro p hp
        rw [VersionedFastAPI_latest_error routes vf pf dv eLeg hnil] at hp
        exact Except.noConfusion hp
    | some v =>
      have hv : versionRoutesOf routes dv ≠ [] := by
        intro hnil
        rw [versionsOf_eq_nil_iff.mpr hnil] at hg
        simp at hg
      constructor
      · constructor
        · rintro ⟨e, he⟩
          rw [VersionedFastAPI_latest_eq routes vf pf dv eLeg hg] at he
          exact Except.noConfusion he
        · rintro ⟨_, hnil⟩
          exact absurd hnil hv
      · intro p hp
        rw [VersionedFastAPI_latest_eq routes vf pf dv eLeg hg] at hp
        have h2 := Except.ok.inj hp
        rw [← h2]
        simp [mainLoop_mounts_length]
  | false =>
    cases eLeg with
    | true =>
      constructor
      · constructor
        · rintro ⟨e, he⟩
          rw [VersionedFastAPI_legacy_eq' routes vf pf dv] at he
          exact Except.noConfusion he
        · rintro ⟨h1, _⟩
          exact Bool.noConfusion h1
      · intro p hp
        rw [VersionedFastAPI_legacy_eq' routes vf pf dv] at hp
        have h2 := Except.ok.inj hp
        rw [← h2]
        simp [mainLoop_mounts_length]
    | false =>
      constructor
      · constructor
        · rintro ⟨e, he⟩
          rw [VersionedFastAPI_none_eq routes vf pf dv] at he
          exact Except.noConfusion he
        · rintro ⟨h1, _⟩
          exact Bool.noConfusion h1
      · intro p hp
        rw [VersionedFastAPI_none_eq routes vf pf dv] at hp
        have h2 := Except.ok.inj hp
        rw [← h2]
        simp [mainLoop_mounts_length]

/-- Witness for the amended C3 at the colliding-prefix input. -/
theorem c3_witness :
    ((∃ e, VersionedFastAPI [BaseRoute.api rA, BaseRoute.api rC11]
        defaultVerFmt (fun _ _ => "/v") (1, 0) false false = Except.error e) ↔
      (false = true ∧ versionRoutesOf [BaseRoute.api rA, BaseRoute.api rC11] (1, 0) = [])) ∧
    (∀ p, VersionedFastAPI [BaseRoute.api rA, BaseRoute.api rC11]
        defaultVerFmt (fun _ _ => "/v") (1, 0) false false = .ok p →
      p.mounts.length =
        (versionsOf (versionRoutesOf [BaseRoute.api rA, BaseRoute.api rC11] (1, 0))).length +
        (if false || false then 1 else 0)) :=
  c3_no_duplicate_prefix_check [BaseRoute.api rA, BaseRoute.api rC11]
    defaultVerFmt (fun _ _ => "/v") (1, 0) false false

/-- C7 counterexample: the same route instance `rA` appears in the
materialized route lists of the two distinct sub-applications mounted at
`/v1_0` and `/v2_0` — contradicting the claim that each route instance is
appended to exactly one router's route list. -/
theorem c7_counterexample :
    VersionedFastAPI [BaseRoute.api rA, BaseRoute.api rB]
        defaultVerFmt defaultPfxFmt (1, 0) false false =
      .ok ⟨[("/v1_0", ⟨"/v1_0", "1.0", [rA]⟩), ("/v2_0", ⟨"/v2_0", "2.0", [rA, rB]⟩)], [],
           ["/v1_0/openapi.json", "/v1_0/docs", "/v2_0/openapi.json", "/v2_0/docs"]⟩ ∧
    rA ∈ ([rA] : List APIRoute) ∧ rA ∈ ([rA, rB] : List APIRoute) ∧
    ("/v1_0", (⟨"/v1_0", "1.0", [rA]⟩ : SubApp)) ≠
      ("/v2_0", (⟨"/v2_0", "2.0", [rA, rB]⟩ : SubApp)) :=
  ⟨rfl, by decide, by decide, by decide⟩

/-- C7 amended: a route instance is appended to the route list of *every*
sub-application whose cumulative table retains it, not to exactly one: if a
key is visible at `V1` and not overridden up to `V2`, the same route object
sits in both versions' materialized route lists (and, conceptually, in the
alias too, which copies the final table). -/
theorem c7_route_instance_shared (routes : List BaseRoute)
    (vf pf : Nat → Nat → String) (dv : Ver) (eLat eLeg : Bool) (p : ParentApp)
    (V1 V2 : Ver) (k : String) (r : APIRoute)
    (h : VersionedFastAPI routes vf pf dv eLat eLeg = Except.ok p)
    (h1 : V1 ∈ versionsOf (versionRoutesOf routes dv))
    (h2 : V2 ∈ versionsOf (versionRoutesOf routes dv))
    (h12 : vle V1 V2)
    (hvis : tblGet (tableAt (versionRoutesOf routes dv) V1) k = some r)
    (hno : ∀ u ∈ versionsOf (versionRoutesOf routes dv), vlt V1 u → vle u V2 →
      definers (versionRoutesOf routes dv) u k = []) :
    (pf V1.1 V1.2, (⟨pf V1.1 V1.2, vf V1.1 V1.2,
        values (tableAt (versionRoutesOf routes dv) V1)⟩ : SubApp)) ∈ p.mounts ∧
    (pf V2.1 V2.2, (⟨pf V2.1 V2.2, vf V2.1 V2.2,
        values (tableAt (versionRoutesOf routes dv) V2)⟩ : SubApp)) ∈ p.mounts ∧
    r ∈ values (tableAt (versionRoutesOf routes dv) V1) ∧
    r ∈ values (tableAt (versionRoutesOf routes dv) V2) := by
  obtain ⟨hm, _⟩ := VersionedFastAPI_ok_structure routes vf pf dv eLat eLeg p h
  have hsub : ∀ e, e ∈ (mainLoop (versionRoutesOf routes dv) pf vf []
      (versionsOf (versionRoutesOf routes dv))).2.1 → e ∈ p.mounts := by
    intro e he
    rcases hm with hm | ⟨q, sem, hm⟩
    · rw [hm]; exact he
    · rw [hm]; exact List.mem_append_left _ he
  have hv2 : tblGet (tableAt (versionRoutesOf routes dv) V2) k = some r := by
    rw [tableAt_inherit _ V1 V2 k h12 hno]
    exact hvis
  refine ⟨hsub _ (mounts_mem_tableAt _ pf vf V1 h1),
          hsub _ (mounts_mem_tableAt _ pf vf V2 h2), ?_, ?_⟩
  · exact List.mem_map.mpr ⟨(k, r), tblGet_mem hvis, rfl⟩
  · exact List.mem_map.mpr ⟨(k, r), tblGet_mem hv2, rfl⟩

/-- Witness for the amended C7: `rA` sits in both the `/v1_0` and the
`/v2_0` sub-applications of the two-version input. -/
theorem c7_witness :
    (defaultPfxFmt 1 0, (⟨defaultPfxFmt 1 0, defaultVerFmt 1 0,
        values (tableAt (versionRoutesOf [BaseRoute.api rA, BaseRoute.api rB] (1, 0))
          (1, 0))⟩ : SubApp)) ∈
      (ParentApp.mk [("/v1_0", ⟨"/v1_0", "1.0", [rA]⟩), ("/v2_0", ⟨"/v2_0", "2.0", [rA, rB]⟩)]
        [] ["/v1_0/openapi.json", "/v1_0/docs", "/v2_0/openapi.json", "/v2_0/docs"]).mounts ∧
    (defaultPfxFmt 2 0, (⟨defaultPfxFmt 2 0, defaultVerFmt 2 0,
        values (tableAt (versionRoutesOf [BaseRoute.api rA, BaseRoute.api rB] (1, 0))
          (2, 0))⟩ : SubApp)) ∈
      (ParentApp.mk [("/v1_0", ⟨"/v1_0", "1.0", [rA]⟩), ("/v2_0", ⟨"/v2_0", "2.0", [rA, rB]⟩)]
        [] ["/v1_0/openapi.json", "/v1_0/docs", "/v2_0/openapi.json", "/v2_0/docs"]).mounts ∧
    rA ∈ values (tableAt (versionRoutesOf [BaseRoute.api rA, BaseRoute.api rB] (1, 0)) (1, 0)) ∧
    rA ∈ values (tableAt (versionRoutesOf [BaseRoute.api rA, BaseRoute.api rB] (1, 0)) (2, 0)) :=
  c7_route_instance_shared [BaseRoute.api rA, BaseRoute.api rB]
    defaultVerFmt defaultPfxFmt (1, 0) false false _ (1, 0) (2, 0)
    (routeKey "/a" "GET") rA (by rfl) (by decide) (by decide) (by decide)
    (by decide) (by decide)

/-- C10: for a route `r` declaring several methods that is the winning value
of each of its `(path, method)` keys in the cumulative table at `V`, the
table holds one key per method all mapped to `r`, so `r` occurs exactly
`k = r.methods.length` times in the materialized route list of the
sub-application for `V` (whose route list is exactly the value list of that
table); and for each method whose key no version in `(V, V']` overrides,
`r` remains the mapped value at `V'`. -/
theorem c10_multi_method (vr : List (Ver × APIRoute)) (pf vf : Nat → Nat → String)
    (V V' : Ver) (r : APIRoute)
    (hV : V ∈ versionsOf vr) (hV' : V' ∈ versionsOf vr)
    (hmn : r.methods.Nodup) (hk : 1 < r.methods.length)
    (hwin : ∀ m ∈ r.methods, tblGet (tableAt vr V) (routeKey r.path m) = some r)
    (hVV' : vle V V') :
    (values (tableAt vr V)).count r = r.methods.length ∧
    (pf V.1 V.2, (⟨pf V.1 V.2, vf V.1 V.2, values (tableAt vr V)⟩ : SubApp))
      ∈ (mainLoop vr pf vf [] (versionsOf vr)).2.1 ∧
    (∀ m ∈ r.methods,
      (∀ u ∈ versionsOf vr, vlt V u → vle u V' →
        definers vr u (routeKey r.path m) = []) →
      tblGet (tableAt vr V') (routeKey r.path m) = some r) := by
  refine ⟨?_, mounts_mem_tableAt vr pf vf V hV, ?_⟩
  · exact count_values_eq_methods_length _ r (tableAt_keys_nodup vr V)
      (tableAt_wf vr V) hmn hwin
  · intro m hm hno
    rw [tableAt_inherit vr V V' _ hVV' hno]
    exact hwin m hm

/-- Witness for C10: `rMulti` declares `GET` and `POST` on `/m` at `(1,0)`;
it appears twice in the `(1,0)` table's values, and since `(2,0)` overrides
only `POST`, the `GET` key still maps to `rMulti` at `(2,0)`. -/
theorem c10_witness :
    (values (tableAt (versionRoutesOf [BaseRoute.api rMulti, BaseRoute.api rMultiPost] (1, 0))
        (1, 0))).count rMulti = rMulti.methods.length ∧
    (defaultPfxFmt 1 0, (⟨defaultPfxFmt 1 0, defaultVerFmt 1 0,
        values (tableAt (versionRoutesOf [BaseRoute.api rMulti, BaseRoute.api rMultiPost] (1, 0))
          (1, 0))⟩ : SubApp))
      ∈ (mainLoop (versionRoutesOf [BaseRoute.api rMulti, BaseRoute.api rMultiPost] (1, 0))
          defaultPfxFmt defaultVerFmt []
          (versionsOf (versionRoutesOf [BaseRoute.api rMulti, BaseRoute.api rMultiPost]
            (1, 0)))).2.1 ∧
    (∀ m ∈ rMulti.methods,
      (∀ u ∈ versionsOf (versionRoutesOf [BaseRoute.api rMulti, BaseRoute.api rMultiPost] (1, 0)),
        vlt (1, 0) u → vle u (2, 0) →
        definers (versionRoutesOf [BaseRoute.api rMulti, BaseRoute.api rMultiPost] (1, 0)) u
          (routeKey rMulti.path m) = []) →
      tblGet (tableAt (versionRoutesOf [BaseRoute.api rMulti, BaseRoute.api rMultiPost] (1, 0))
        (2, 0)) (routeKey rMulti.path m) = some rMulti) :=
  c10_multi_method (versionRoutesOf [BaseRoute.api rMulti, BaseRoute.api rMultiPost] (1, 0))
    defaultPfxFmt defaultVerFmt (1, 0) (2, 0) rMulti
    (by decide) (by decide) (by decide) (by decide) (by decide) (by decide)

end FastapiVersioning
